import Mathlib

/-!
Formal model of the SupEmb supervised embedding method (embed.py).

Numpy matrices are modelled as Mathlib matrices over the reals, indexed by
Fin types (or sums of Fin types where the code assembles block matrices by
concatenation).  Floating point arithmetic is idealised as exact real
arithmetic.  The similarity engine, the three graph builders, the Laplacian
and inverse-degree computations, the block assembly of the joint matrix Q
and the construction-time shape checks are all translated directly from the
source.  The truncated SVD of get_projection is performed by the external
sparsesvd library, so get_projection is modelled as a function of the factor
that the library returns.
-/

open Matrix

/-- L2 norm of row i of A, as used by sklearn preprocessing.normalize. -/
noncomputable def rowNorm {n c : ℕ} (A : Matrix (Fin n) (Fin c) ℝ) (i : Fin n) : ℝ :=
  Real.sqrt (∑ j, A i j ^ 2)

/-- Row-wise L2 normalisation; an all-zero row stays zero (its norm is zero and
    division by zero yields zero, matching sklearn leaving zero rows as-is). -/
noncomputable def l2normalize {n c : ℕ} (A : Matrix (Fin n) (Fin c) ℝ) :
    Matrix (Fin n) (Fin c) ℝ :=
  fun i j => A i j / rowNorm A i

/-- Cosine similarity matrix S = dot(normA, normA.T) computed inside get_kNNs. -/
noncomputable def simMatrix {n c : ℕ} (A : Matrix (Fin n) (Fin c) ℝ) :
    Matrix (Fin n) (Fin n) ℝ :=
  l2normalize A * (l2normalize A)ᵀ

/-- Ascending argsort of the values v over all row indices, modelling
    numpy.argsort applied to one row of S (stable order on ties). -/
noncomputable def argsort {n : ℕ} (v : Fin n → ℝ) : List (Fin n) :=
  @List.insertionSort (Fin n) (fun a b => v a ≤ v b)
    (fun a b => Real.decidableLE (v a) (v b)) (List.finRange n)

/-- Python slice l[-k:]: the last k elements of l; the whole list when k = 0
    (since -0 is 0) or when k is at least the length of l. -/
def lastSlice {α : Type} (l : List α) (k : ℕ) : List α :=
  if k = 0 then l else l.drop (l.length - k)

/-- get_kNNs: the similarity matrix together with the per-row neighbour lists
    neighbours[i] = N[i,:][-k:] where N = argsort(S). -/
noncomputable def get_kNNs {n c : ℕ} (A : Matrix (Fin n) (Fin c) ℝ) (k : ℕ) :
    Matrix (Fin n) (Fin n) ℝ × (Fin n → List (Fin n)) :=
  (simMatrix A, fun i => lastSlice (argsort (fun j => simMatrix A i j)) k)

/-- numpy.concatenate of two matrices along axis 0 (rows of X first, then rows of Y). -/
def vcat {p q c : ℕ} (X : Matrix (Fin p) (Fin c) ℝ) (Y : Matrix (Fin q) (Fin c) ℝ) :
    Matrix (Fin (p + q)) (Fin c) ℝ :=
  fun i j => if h : (i : ℕ) < p then X ⟨i, h⟩ j else Y ⟨(i : ℕ) - p, by have := i.isLt; omega⟩ j

/-- Label vector built in get_W2: +1 for the first p rows (positive documents),
    -1 for the remaining q rows (negative documents). -/
noncomputable def labels (p q : ℕ) : Fin (p + q) → ℝ :=
  fun i => if (i : ℕ) < p then 1 else -1

/-- get_W1: the 2Mx2M block matrix of the form [O I; I O]. -/
noncomputable def get_W1 (M : ℕ) : Matrix (Fin M ⊕ Fin M) (Fin M ⊕ Fin M) ℝ :=
  Matrix.fromBlocks 0 1 1 0

open Classical in
/-- get_W2: weight matrix over the stacked labeled documents.  An entry (i, j)
    is set only when i and j are mutual nearest neighbours: to
    -lambda2 * S[i,j] when the labels agree and to S[i,j] when they differ. -/
noncomputable def get_W2 {p q c : ℕ} (Xp : Matrix (Fin p) (Fin c) ℝ)
    (Xn : Matrix (Fin q) (Fin c) ℝ) (k : ℕ) (lam : ℝ) :
    Matrix (Fin (p + q)) (Fin (p + q)) ℝ :=
  fun i j =>
    if j ∈ (get_kNNs (vcat Xp Xn) k).2 i ∧ i ∈ (get_kNNs (vcat Xp Xn) k).2 j then
      if labels p q i = labels p q j then -lam * (get_kNNs (vcat Xp Xn) k).1 i j
      else (get_kNNs (vcat Xp Xn) k).1 i j
    else 0

/-- get_W3: every entry is the raw similarity score S[i,j]; the neighbour
    structure produced by get_kNNs is never consulted. -/
noncomputable def get_W3 {n c : ℕ} (X : Matrix (Fin n) (Fin c) ℝ) (k : ℕ) :
    Matrix (Fin n) (Fin n) ℝ :=
  fun i j => (get_kNNs X k).1 i j

/-- Vector of row sums of W (numpy.sum along axis 1). -/
noncomputable def rowsum {α β : Type} [Fintype β] (W : Matrix α β ℝ) (i : α) : ℝ :=
  ∑ j, W i j

/-- get_Laplacian: L = W - diag(row sums of W). -/
noncomputable def get_Laplacian {α : Type} [Fintype α] [DecidableEq α]
    (W : Matrix α α ℝ) : Matrix α α ℝ :=
  W - Matrix.diagonal (rowsum W)

open Classical in
/-- perturbate: replace every zero entry of s by the mean of all entries of s. -/
noncomputable def perturbate {α : Type} [Fintype α] (s : α → ℝ) : α → ℝ :=
  fun i => if s i = 0 then (∑ j, s j) / (Fintype.card α) else s i

open Classical in
/-- get_Dinv: diagonal matrix of reciprocal row sums.  The source calls
    perturbate whenever numpy.count_nonzero of the row sums is positive, that
    is, whenever some row sum is nonzero. -/
noncomputable def get_Dinv {α β : Type} [Fintype α] [Fintype β] [DecidableEq α]
    (W : Matrix α β ℝ) : Matrix α α ℝ :=
  Matrix.diagonal fun i =>
    1 / (if ∃ i0, rowsum W i0 ≠ 0 then perturbate (rowsum W) else rowsum W) i

/-- The eight input matrices of a SupEmb instance, with the construction
    invariants of the asserts in the constructor enforced by the index types,
    together with the model parameters set in the constructor. -/
structure SupEmb (M ra rb d hd p q ua ub : ℕ) where
  Ua : Matrix (Fin M) (Fin d) ℝ
  Ub : Matrix (Fin M) (Fin hd) ℝ
  A : Matrix (Fin ra) (Fin d) ℝ
  B : Matrix (Fin rb) (Fin hd) ℝ
  XlA_pos : Matrix (Fin p) (Fin (M + ra)) ℝ
  XlA_neg : Matrix (Fin q) (Fin (M + ra)) ℝ
  XuA : Matrix (Fin ua) (Fin (M + ra)) ℝ
  XuB : Matrix (Fin ub) (Fin (M + rb)) ℝ
  w1 : ℝ := 1
  w2 : ℝ := 1
  w3 : ℝ := 1
  lambda_1 : ℝ := 1
  lambda_2 : ℝ := 1
  k2 : ℕ := 5
  k3 : ℕ := 5
  k3_bar : ℕ := 5
  dims : ℕ := 500

variable {M ra rb d hd p q ua ub : ℕ}

/-- get_U1: the block matrix [[Ua, O], [O, Ub]]. -/
noncomputable def SupEmb.get_U1 (se : SupEmb M ra rb d hd p q ua ub) :
    Matrix (Fin M ⊕ Fin M) (Fin d ⊕ Fin hd) ℝ :=
  Matrix.fromBlocks se.Ua 0 0 se.Ub

/-- get_embedding: assembles the joint matrix Q from the three rules exactly as
    the source does: Q = [[w2 F2 - w3 F3, 0], [0, -w3 lambda2 F3bar]] - U1.T L1 U1. -/
noncomputable def SupEmb.get_embedding (se : SupEmb M ra rb d hd p q ua ub) :
    Matrix (Fin d ⊕ Fin hd) (Fin d ⊕ Fin hd) ℝ :=
  let L1 := get_Laplacian (get_W1 M)
  let U1 := se.get_U1
  let Qright := U1ᵀ * L1 * U1
  let XlA := vcat se.XlA_pos se.XlA_neg
  let L2 := get_Laplacian (get_W2 se.XlA_pos se.XlA_neg se.k2 se.lambda_2)
  let D2 := get_Dinv XlA
  let totA := vcat se.Ua se.A
  let part1 := D2 * XlA * totA
  let F2 := part1ᵀ * L2 * part1
  let L3 := get_Laplacian (get_W3 se.XuA se.k3)
  let D3 := get_Dinv se.XuA
  let part2 := D3 * se.XuA * totA
  let F3 := part2ᵀ * L3 * part2
  let L3bar := get_Laplacian (get_W3 se.XuB se.k3_bar)
  let D3bar := get_Dinv se.XuB
  let totB := vcat se.Ub se.B
  let part3 := D3bar * se.XuB * totB
  let F3bar := part3ᵀ * L3bar * part3
  let Q11 := se.w2 • F2 - se.w3 • F3
  let Q12 : Matrix (Fin d) (Fin hd) ℝ := 0
  let Q22 := (-(se.w3 * se.lambda_2)) • F3bar
  let Qleft := Matrix.fromBlocks Q11 Q12 Q12ᵀ Q22
  Qleft - Qright

/-- get_projection: the sparsesvd library returns the transposed left factor
    ut of shape (dims, d + hd); get_projection slices its columns as
    Pa = u[:, :d] and Pb = u[:, d:].  The factor u is taken as an input here
    because the SVD itself happens inside the external library.  Matrices are
    row-major lists of rows, so column slicing is per-row take and drop. -/
def get_projection (d : ℕ) (u : List (List ℝ)) : List (List ℝ) × List (List ℝ) :=
  (u.map (List.take d), u.map (List.drop d))

/-- Shape predicate for row-major list matrices: r rows, each of c entries. -/
def isShape (m : List (List ℝ)) (r c : ℕ) : Prop :=
  m.length = r ∧ ∀ row ∈ m, row.length = c

/-- Row and column counts of the eight raw input matrices, as seen by the
    shape asserts of the constructor. -/
structure RawDims where
  UaRows : ℕ
  UaCols : ℕ
  UbRows : ℕ
  UbCols : ℕ
  ARows : ℕ
  ACols : ℕ
  BRows : ℕ
  BCols : ℕ
  XpRows : ℕ
  XpCols : ℕ
  XnRows : ℕ
  XnCols : ℕ
  XuARows : ℕ
  XuACols : ℕ
  XuBRows : ℕ
  XuBCols : ℕ

/-- The six asserts executed by the constructor, in source order, before any
    embedding computation; the conjunction is false exactly when some assert
    raises. -/
def initChecks (r : RawDims) : Bool :=
  (r.UaRows == r.UbRows) && (r.UbCols == r.BCols) && (r.UaCols == r.ACols) &&
  (r.XpCols == r.XnCols) && (r.UaRows + r.ARows == r.XuACols) &&
  (r.UbRows + r.BRows == r.XuBCols)

/-- Concrete one-row positive block used to evaluate the model. -/
noncomputable def Xp1 : Matrix (Fin 1) (Fin 1) ℝ := !![1]

/-- Concrete one-row negative block used to evaluate the model. -/
noncomputable def Xn1 : Matrix (Fin 1) (Fin 1) ℝ := !![-1]

/-- Concrete 2x2 matrix with one zero row, used to evaluate get_Dinv. -/
noncomputable def Wdemo : Matrix (Fin 2) (Fin 2) ℝ := !![2, 0; 0, 0]

/-! Helper lemmas shared by several developments. -/

theorem simMatrix_transpose {n c : ℕ} (A : Matrix (Fin n) (Fin c) ℝ) :
    (simMatrix A)ᵀ = simMatrix A := by
  unfold simMatrix
  rw [transpose_mul, transpose_transpose]

theorem simMatrix_symm_apply {n c : ℕ} (A : Matrix (Fin n) (Fin c) ℝ) (i j : Fin n) :
    simMatrix A j i = simMatrix A i j := by
  have h := congrFun (congrFun (simMatrix_transpose A) i) j
  simpa [Matrix.transpose_apply] using h

/-- C8: get_Laplacian W equals W minus the diagonal matrix of row sums, and
    every row of the result sums to zero. -/
theorem laplacian_spec {n : ℕ} (W : Matrix (Fin n) (Fin n) ℝ) :
    get_Laplacian W = W - Matrix.diagonal (rowsum W) ∧
    ∀ i, ∑ j, get_Laplacian W i j = 0 := by
  refine ⟨rfl, fun i => ?_⟩
  have hdiag : ∑ j, Matrix.diagonal (rowsum W) i j = rowsum W i := by
    rw [Finset.sum_eq_single i]
    · simp [Matrix.diagonal_apply_eq]
    · intro b _ hb
      exact Matrix.diagonal_apply_ne _ (Ne.symm hb)
    · intro hmem
      exact absurd (Finset.mem_univ i) hmem
  simp only [get_Laplacian, Matrix.sub_apply, Finset.sum_sub_distrib, hdiag]
  simp [rowsum]

/-- C3: get_W3 ignores the neighbour structure: every entry equals the raw
    cosine similarity, so the result is the full similarity matrix of X and
    does not depend on k. -/
theorem w3_full_similarity {n c : ℕ} (X : Matrix (Fin n) (Fin c) ℝ) (k : ℕ) :
    (∀ i j, get_W3 X k i j = simMatrix X i j) ∧
    ∀ k2, get_W3 X k = get_W3 X k2 := by
  exact ⟨fun i j => rfl, fun k2 => rfl⟩

/-- C7: the constructor checks succeed exactly when the six shape invariants
    hold, and fail (an assert raises, before any embedding computation) exactly
    when one of them is violated. -/
theorem init_assert_iff (r : RawDims) :
    (initChecks r = true ↔
      (r.UaRows = r.UbRows ∧ r.UbCols = r.BCols ∧ r.UaCols = r.ACols ∧
       r.XpCols = r.XnCols ∧ r.UaRows + r.ARows = r.XuACols ∧
       r.UbRows + r.BRows = r.XuBCols)) ∧
    (initChecks r = false ↔
      ¬ (r.UaRows = r.UbRows ∧ r.UbCols = r.BCols ∧ r.UaCols = r.ACols ∧
         r.XpCols = r.XnCols ∧ r.UaRows + r.ARows = r.XuACols ∧
         r.UbRows + r.BRows = r.XuBCols)) := by
  constructor
  · simp [initChecks, Bool.and_eq_true, beq_iff_eq, and_assoc]
  · rw [← Bool.not_eq_true]
    simp [initChecks, Bool.and_eq_true, beq_iff_eq, and_assoc]

theorem init_assert_iff_witness :
    initChecks ⟨3, 4, 3, 5, 6, 4, 7, 5, 8, 9, 10, 9, 11, 9, 12, 10⟩ = true :=
  (init_assert_iff _).1.mpr (by norm_num)

/-- C4: get_Dinv is diagonal; on rows with nonzero row sum the diagonal entry
    is the exact reciprocal of the row sum, and on rows with zero row sum it is
    the reciprocal of the mean of all row sums (the perturbation is applied
    locally and no division error is raised). -/
theorem dinv_spec {n : ℕ} (W : Matrix (Fin n) (Fin n) ℝ) (i : Fin n) :
    (rowsum W i ≠ 0 → get_Dinv W i i * rowsum W i = 1) ∧
    (rowsum W i = 0 → get_Dinv W i i = 1 / ((∑ j, rowsum W j) / n)) ∧
    (∀ j, j ≠ i → get_Dinv W i j = 0) := by
  classical
  refine ⟨?_, ?_, ?_⟩
  · intro hne
    have hex : ∃ i0, rowsum W i0 ≠ 0 := ⟨i, hne⟩
    simp only [get_Dinv, Matrix.diagonal_apply_eq, if_pos hex, perturbate, if_neg hne]
    exact one_div_mul_cancel hne
  · intro hz
    by_cases hex : ∃ i0, rowsum W i0 ≠ 0
    · simp only [get_Dinv, Matrix.diagonal_apply_eq, if_pos hex, perturbate, if_pos hz]
      norm_num
    · push_neg at hex
      have hsum : (∑ j, rowsum W j) = 0 := Finset.sum_eq_zero fun j _ => hex j
      simp only [get_Dinv, Matrix.diagonal_apply_eq, if_neg, hex, hz, hsum]
      simp [hz, hsum]
  · intro j hj
    simp only [get_Dinv]
    exact Matrix.diagonal_apply_ne _ (Ne.symm hj)

theorem dinv_spec_witness :
    get_Dinv Wdemo 0 0 * rowsum Wdemo 0 = 1 ∧ get_Dinv Wdemo 1 1 = 1 := by
  have h0 : rowsum Wdemo 0 = 2 := by
    simp [rowsum, Wdemo, Fin.sum_univ_two]
  have h1 : rowsum Wdemo 1 = 0 := by
    simp [rowsum, Wdemo, Fin.sum_univ_two]
  constructor
  · exact (dinv_spec Wdemo 0).1 (by rw [h0]; norm_num)
  · have h := (dinv_spec Wdemo 1).2.1 h1
    rw [h, Fin.sum_univ_two, h0, h1]
    norm_num

open Classical in
/-- C9: get_W1 M is a 2Mx2M matrix equal to its own transpose, every entry is
    0 or 1, and exactly 2M entries are nonzero (hence all equal to 1). -/
theorem w1_spec (M : ℕ) :
    (get_W1 M)ᵀ = get_W1 M ∧
    Fintype.card (Fin M ⊕ Fin M) = 2 * M ∧
    (∀ i j, get_W1 M i j = 0 ∨ get_W1 M i j = 1) ∧
    (Finset.univ.filter fun pr : (Fin M ⊕ Fin M) × (Fin M ⊕ Fin M) =>
        get_W1 M pr.1 pr.2 ≠ 0).card = 2 * M := by
  refine ⟨?_, ?_, ?_, ?_⟩
  · unfold get_W1
    rw [Matrix.fromBlocks_transpose, Matrix.transpose_zero, Matrix.transpose_one]
  · simp [Fintype.card_sum]
    ring
  · intro i j
    cases i <;> cases j <;> simp [get_W1, Matrix.one_apply] <;> tauto
  · have hset : (Finset.univ.filter fun pr : (Fin M ⊕ Fin M) × (Fin M ⊕ Fin M) =>
        get_W1 M pr.1 pr.2 ≠ 0) =
        (Finset.univ.image fun t : Fin M =>
          ((Sum.inl t : Fin M ⊕ Fin M), (Sum.inr t : Fin M ⊕ Fin M))) ∪
        (Finset.univ.image fun t : Fin M =>
          ((Sum.inr t : Fin M ⊕ Fin M), (Sum.inl t : Fin M ⊕ Fin M))) := by
      ext pr
      obtain ⟨x, y⟩ := pr
      simp only [Finset.mem_filter, Finset.mem_univ, true_and, Finset.mem_union,
        Finset.mem_image]
      cases x with
      | inl a =>
        cases y with
        | inl b => simp [get_W1, Matrix.one_apply]
        | inr b => by_cases hab : a = b <;> simp [get_W1, Matrix.one_apply, hab]
      | inr a =>
        cases y with
        | inl b => by_cases hab : a = b <;> simp [get_W1, Matrix.one_apply, hab]
        | inr b => simp [get_W1, Matrix.one_apply]
    have hinj1 : Function.Injective (fun t : Fin M =>
        ((Sum.inl t : Fin M ⊕ Fin M), (Sum.inr t : Fin M ⊕ Fin M))) := by
      intro s t hst
      simpa using hst
    have hinj2 : Function.Injective (fun t : Fin M =>
        ((Sum.inr t : Fin M ⊕ Fin M), (Sum.inl t : Fin M ⊕ Fin M))) := by
      intro s t hst
      simpa using hst
    have hdisj : Disjoint
        (Finset.univ.image fun t : Fin M =>
          ((Sum.inl t : Fin M ⊕ Fin M), (Sum.inr t : Fin M ⊕ Fin M)))
        (Finset.univ.image fun t : Fin M =>
          ((Sum.inr t : Fin M ⊕ Fin M), (Sum.inl t : Fin M ⊕ Fin M))) := by
      rw [Finset.disjoint_left]
      rintro ⟨x, y⟩ hx hy
      simp only [Finset.mem_image, Finset.mem_univ, true_and] at hx hy
      obtain ⟨t1, h1⟩ := hx
      obtain ⟨t2, h2⟩ := hy
      rw [← h1] at h2
      simp at h2
    rw [hset, Finset.card_union_of_disjoint hdisj,
      Finset.card_image_of_injective _ hinj1, Finset.card_image_of_injective _ hinj2,
      Finset.card_univ, Fintype.card_fin]
    ring

theorem X12_eq : vcat Xp1 Xn1 = !![(1:ℝ); -1] := by
  ext i j
  fin_cases i <;> fin_cases j <;> norm_num [vcat, Xp1, Xn1]

theorem rowNorm12 (i : Fin 2) : rowNorm (vcat Xp1 Xn1) i = 1 := by
  unfold rowNorm
  rw [X12_eq]
  fin_cases i <;> norm_num [Fin.sum_univ_one, Real.sqrt_one]

theorem l2norm12 : l2normalize (vcat Xp1 Xn1) = vcat Xp1 Xn1 := by
  ext i j
  simp [l2normalize, rowNorm12]

theorem simMatrix12 : simMatrix (vcat Xp1 Xn1) = !![(1:ℝ), -1; -1, 1] := by
  unfold simMatrix
  rw [l2norm12, X12_eq]
  ext i j
  fin_cases i <;> fin_cases j <;>
    simp [Matrix.mul_apply, Fin.sum_univ_one, Matrix.transpose_apply,
      Matrix.vecHead, Matrix.vecTail]

theorem argsort_two (v : Fin 2 → ℝ) :
    argsort v = if v 0 ≤ v 1 then [0, 1] else [1, 0] := by
  have hfr : List.finRange 2 = [0, 1] := by decide
  by_cases hv : v 0 ≤ v 1
  · simp [argsort, hfr, List.insertionSort, List.orderedInsert, hv]
  · simp [argsort, hfr, List.insertionSort, List.orderedInsert, hv]

theorem nbX12_0 (k : ℕ) : (get_kNNs (vcat Xp1 Xn1) k).2 0 = lastSlice [1, 0] k := by
  show lastSlice (argsort fun j => simMatrix (vcat Xp1 Xn1) 0 j) k = lastSlice [1, 0] k
  have h : (fun j => simMatrix (vcat Xp1 Xn1) 0 j) =
      fun j => (!![(1:ℝ), -1; -1, 1]) 0 j := by
    funext j
    rw [simMatrix12]
  rw [h, argsort_two]
  have hc : ¬ ((!![(1:ℝ), -1; -1, 1]) 0 0 ≤ (!![(1:ℝ), -1; -1, 1]) 0 1) := by
    norm_num
  rw [if_neg hc]

theorem nbX12_1 (k : ℕ) : (get_kNNs (vcat Xp1 Xn1) k).2 1 = lastSlice [0, 1] k := by
  show lastSlice (argsort fun j => simMatrix (vcat Xp1 Xn1) 1 j) k = lastSlice [0, 1] k
  have h : (fun j => simMatrix (vcat Xp1 Xn1) 1 j) =
      fun j => (!![(1:ℝ), -1; -1, 1]) 1 j := by
    funext j
    rw [simMatrix12]
  rw [h, argsort_two]
  have hc : (!![(1:ℝ), -1; -1, 1]) 1 0 ≤ (!![(1:ℝ), -1; -1, 1]) 1 1 := by
    norm_num
  rw [if_pos hc]

/-- C2: every entry of get_W2 at a mutual k2-nearest-neighbour pair is
    -lambda2 times the similarity when the two rows carry the same label and
    the plain similarity when they differ, and every other entry is zero.
    A row index below p is a positive document, one at or above p negative. -/
theorem w2_entries_spec {p q c : ℕ} (Xp : Matrix (Fin p) (Fin c) ℝ)
    (Xn : Matrix (Fin q) (Fin c) ℝ) (k : ℕ) (lam : ℝ) (i j : Fin (p + q)) :
    ((j ∈ (get_kNNs (vcat Xp Xn) k).2 i ∧ i ∈ (get_kNNs (vcat Xp Xn) k).2 j) →
      ((((i : ℕ) < p) ↔ ((j : ℕ) < p)) →
        get_W2 Xp Xn k lam i j = -lam * simMatrix (vcat Xp Xn) i j) ∧
      (¬ (((i : ℕ) < p) ↔ ((j : ℕ) < p)) →
        get_W2 Xp Xn k lam i j = simMatrix (vcat Xp Xn) i j)) ∧
    (¬ (j ∈ (get_kNNs (vcat Xp Xn) k).2 i ∧ i ∈ (get_kNNs (vcat Xp Xn) k).2 j) →
      get_W2 Xp Xn k lam i j = 0) := by
  classical
  have hlab : (labels p q i = labels p q j) ↔ (((i : ℕ) < p) ↔ ((j : ℕ) < p)) := by
    unfold labels
    by_cases h1 : (i : ℕ) < p <;> by_cases h2 : (j : ℕ) < p <;>
      simp [h1, h2] <;> norm_num
  refine ⟨fun hm => ⟨fun hb => ?_, fun hb => ?_⟩, fun hm => ?_⟩
  · simp only [get_W2]
    rw [if_pos hm, if_pos (hlab.mpr hb)]
    rfl
  · simp only [get_W2]
    rw [if_pos hm, if_neg (fun hy => hb (hlab.mp hy))]
    rfl
  · simp only [get_W2]
    rw [if_neg hm]

theorem w2_entries_spec_witness :
    get_W2 Xp1 Xn1 2 1 0 1 = -1 ∧ get_W2 Xp1 Xn1 2 1 0 0 = -1 ∧
    get_W2 Xp1 Xn1 1 1 0 1 = 0 := by
  have hm01 : (1 : Fin 2) ∈ (get_kNNs (vcat Xp1 Xn1) 2).2 0 ∧
      (0 : Fin 2) ∈ (get_kNNs (vcat Xp1 Xn1) 2).2 1 := by
    rw [nbX12_0 2, nbX12_1 2]
    exact ⟨by decide, by decide⟩
  have hm00 : (0 : Fin 2) ∈ (get_kNNs (vcat Xp1 Xn1) 2).2 0 ∧
      (0 : Fin 2) ∈ (get_kNNs (vcat Xp1 Xn1) 2).2 0 := by
    rw [nbX12_0 2]
    exact ⟨by decide, by decide⟩
  have hnm : ¬ ((1 : Fin 2) ∈ (get_kNNs (vcat Xp1 Xn1) 1).2 0 ∧
      (0 : Fin 2) ∈ (get_kNNs (vcat Xp1 Xn1) 1).2 1) := by
    rw [nbX12_0 1, nbX12_1 1]
    decide
  refine ⟨?_, ?_, ?_⟩
  · have h := ((w2_entries_spec Xp1 Xn1 2 1 0 1).1 hm01).2 (by decide)
    rw [h, simMatrix12]
    norm_num
  · have h := ((w2_entries_spec Xp1 Xn1 2 1 0 0).1 hm00).1 (by decide)
    rw [h, simMatrix12]
    norm_num
  · exact (w2_entries_spec Xp1 Xn1 1 1 0 1).2 hnm

/-- C6 counterexample: for a 1-row input and k = 1 (so k is at least the number
    of rows n = 1), the neighbour list returned by get_kNNs has 1 entry (the
    row itself), not the n - 1 = 0 entries the claim asserts for k at or above n. -/
theorem knn_clip_claim_false :
    ¬ (((get_kNNs (!![(1:ℝ)]) 1).2 0).length = 0) := by
  have h : (get_kNNs (!![(1:ℝ)]) 1).2 0 = [0] := rfl
  rw [h]
  simp

/-- C6 amended: for 1 at most k at most n the neighbour list of every row has
    exactly k entries, and for k at least n the call still succeeds and the
    neighbour list holds all n rows, including the row itself (n entries, not
    n - 1). -/
theorem knn_neighbour_counts {n c : ℕ} (A : Matrix (Fin n) (Fin c) ℝ) (k : ℕ) (i : Fin n) :
    (1 ≤ k → k ≤ n → ((get_kNNs A k).2 i).length = k) ∧
    (n ≤ k → ((get_kNNs A k).2 i).length = n ∧ ∀ j, j ∈ (get_kNNs A k).2 i) := by
  have hlen : (argsort fun j => simMatrix A i j).length = n := by
    unfold argsort
    rw [List.length_insertionSort, List.length_finRange]
  constructor
  · intro hk1 hkn
    show (lastSlice (argsort fun j => simMatrix A i j) k).length = k
    unfold lastSlice
    rw [if_neg (by omega : ¬ k = 0), List.length_drop, hlen]
    omega
  · intro hnk
    have hmem : ∀ j : Fin n, j ∈ argsort fun j0 => simMatrix A i j0 := by
      intro j
      unfold argsort
      exact (List.perm_insertionSort _ _).mem_iff.mpr (List.mem_finRange j)
    constructor
    · show (lastSlice (argsort fun j => simMatrix A i j) k).length = n
      unfold lastSlice
      by_cases hk : k = 0
      · rw [if_pos hk, hlen]
      · rw [if_neg hk, List.length_drop, hlen]
        omega
    · intro j
      show j ∈ lastSlice (argsort fun j0 => simMatrix A i j0) k
      unfold lastSlice
      by_cases hk : k = 0
      · rw [if_pos hk]
        exact hmem j
      · rw [if_neg hk]
        have hz : (argsort fun j0 => simMatrix A i j0).length - k = 0 := by
          rw [hlen]
          omega
        rw [hz, List.drop_zero]
        exact hmem j

theorem knn_neighbour_counts_witness :
    ((get_kNNs (vcat Xp1 Xn1) 1).2 0).length = 1 ∧
    ((get_kNNs (vcat Xp1 Xn1) 3).2 0).length = 2 ∧
    ∀ j, j ∈ (get_kNNs (vcat Xp1 Xn1) 3).2 0 := by
  refine ⟨(knn_neighbour_counts (vcat Xp1 Xn1) 1 0).1 (by norm_num) (by norm_num),
    ((knn_neighbour_counts (vcat Xp1 Xn1) 3 0).2 (by norm_num)).1,
    ((knn_neighbour_counts (vcat Xp1 Xn1) 3 0).2 (by norm_num)).2⟩

/-- C5 counterexample: for an SVD factor u of shape (dims, d + h) with
    dims = 1, d = 2, h = 1 (a valid setting with dims below d + h), the first
    component Pa of get_projection has 1 row of 2 entries, so it does not have
    the claimed shape (d, dims) = (2, 1). -/
theorem projection_claim_shape_false :
    ¬ isShape (get_projection 2 [[(1:ℝ), 2, 3]]).1 2 1 := by
  intro h
  have hlen := h.1
  simp [get_projection] at hlen

/-- C5 amended: for every SVD factor u of shape (dims, d + h), as returned by
    sparsesvd, Pa = u[:, :d] has shape (dims, d) and Pb = u[:, d:] has shape
    (dims, h), and each row of u is recovered by joining the corresponding
    rows of Pa and Pb. -/
theorem projection_split_shapes (d dims dh : ℕ) (u : List (List ℝ))
    (hu : isShape u dims dh) (hd : d ≤ dh) :
    isShape (get_projection d u).1 dims d ∧
    isShape (get_projection d u).2 dims (dh - d) ∧
    List.zipWith (fun r s => r ++ s) (get_projection d u).1 (get_projection d u).2 = u := by
  obtain ⟨hlen, hrow⟩ := hu
  refine ⟨⟨by simp [get_projection, hlen], ?_⟩, ⟨by simp [get_projection, hlen], ?_⟩, ?_⟩
  · intro row hr
    simp only [get_projection, List.mem_map] at hr
    obtain ⟨r0, hr0, hr0eq⟩ := hr
    rw [← hr0eq, List.length_take, hrow r0 hr0]
    omega
  · intro row hr
    simp only [get_projection, List.mem_map] at hr
    obtain ⟨r0, hr0, hr0eq⟩ := hr
    rw [← hr0eq, List.length_drop, hrow r0 hr0]
  · show List.zipWith (fun r s => r ++ s) (u.map (List.take d)) (u.map (List.drop d)) = u
    clear hlen hrow hd
    induction u with
    | nil => simp
    | cons r t ih =>
      simp only [List.map_cons, List.zipWith_cons_cons, List.take_append_drop]
      rw [ih]

theorem projection_split_shapes_witness :
    isShape (get_projection 2 [[(1:ℝ), 2, 3]]).1 1 2 ∧
    isShape (get_projection 2 [[(1:ℝ), 2, 3]]).2 1 1 := by
  have h := projection_split_shapes 2 1 3 [[(1:ℝ), 2, 3]]
    (by constructor <;> simp [isShape]) (by norm_num)
  exact ⟨h.1, h.2.1⟩

theorem row_zero_of_sq_sum {n c : ℕ} (A : Matrix (Fin n) (Fin c) ℝ) (i : Fin n)
    (h : (∑ t, A i t ^ 2) = 0) : ∀ t, A i t = 0 := by
  intro t
  have hnn : ∀ t0 ∈ Finset.univ, (0:ℝ) ≤ A i t0 ^ 2 := fun t0 _ => sq_nonneg _
  have hz := (Finset.sum_eq_zero_iff_of_nonneg hnn).mp h t (Finset.mem_univ t)
  exact (pow_eq_zero_iff (two_ne_zero)).mp hz

theorem sq_sum_normalized {n c : ℕ} (A : Matrix (Fin n) (Fin c) ℝ) (i : Fin n) :
    (∑ t, l2normalize A i t ^ 2) = if (∑ t, A i t ^ 2) = 0 then 0 else 1 := by
  by_cases h : (∑ t, A i t ^ 2) = 0
  · rw [if_pos h]
    apply Finset.sum_eq_zero
    intro t _
    simp [l2normalize, row_zero_of_sq_sum A i h t]
  · rw [if_neg h]
    have hpos : 0 < ∑ t, A i t ^ 2 :=
      lt_of_le_of_ne (Finset.sum_nonneg fun t _ => sq_nonneg _) (Ne.symm h)
    have hsqrt : rowNorm A i ^ 2 = ∑ t, A i t ^ 2 := Real.sq_sqrt hpos.le
    have hdiv : (∑ t, l2normalize A i t ^ 2) = (∑ t, A i t ^ 2) / rowNorm A i ^ 2 := by
      rw [Finset.sum_div]
      apply Finset.sum_congr rfl
      intro t _
      simp [l2normalize, div_pow]
    rw [hdiv, hsqrt]
    exact div_self h

theorem simMatrix_diag {n c : ℕ} (A : Matrix (Fin n) (Fin c) ℝ) (i : Fin n) :
    simMatrix A i i = if (∑ t, A i t ^ 2) = 0 then 0 else 1 := by
  have h : simMatrix A i i = ∑ t, l2normalize A i t ^ 2 := by
    simp [simMatrix, Matrix.mul_apply, Matrix.transpose_apply, pow_two]
  rw [h, sq_sum_normalized]

theorem simMatrix_le_diag {n c : ℕ} (A : Matrix (Fin n) (Fin c) ℝ) (i j : Fin n) :
    simMatrix A i j ≤ simMatrix A i i := by
  have hij : simMatrix A i j = ∑ t, l2normalize A i t * l2normalize A j t := by
    simp [simMatrix, Matrix.mul_apply, Matrix.transpose_apply]
  by_cases h : (∑ t, A i t ^ 2) = 0
  · have hz : simMatrix A i j = 0 := by
      rw [hij]
      apply Finset.sum_eq_zero
      intro t _
      simp [l2normalize, row_zero_of_sq_sum A i h t]
    rw [hz, simMatrix_diag, if_pos h]
  · rw [simMatrix_diag, if_neg h]
    have hcs := Finset.sum_mul_sq_le_sq_mul_sq Finset.univ
      (fun t => l2normalize A i t) (fun t => l2normalize A j t)
    have h1 : (∑ t, l2normalize A i t ^ 2) = 1 := by
      rw [sq_sum_normalized, if_neg h]
    have h2 : (∑ t, l2normalize A j t ^ 2) ≤ 1 := by
      rw [sq_sum_normalized]
      split <;> norm_num
    have hsq : (simMatrix A i j) ^ 2 ≤ 1 := by
      rw [hij]
      calc (∑ t, l2normalize A i t * l2normalize A j t) ^ 2
          ≤ (∑ t, l2normalize A i t ^ 2) * (∑ t, l2normalize A j t ^ 2) := hcs
        _ ≤ 1 := by
            rw [h1, one_mul]
            exact h2
    exact le_trans (le_abs_self _) ((sq_le_one_iff_abs_le_one _).mp hsq)

theorem self_mem_lastSlice {n : ℕ} (v : Fin n → ℝ) (k : ℕ) (i : Fin n)
    (hmax : ∀ j, v j ≤ v i)
    (htie : ∀ t : Finset (Fin n), (∀ j ∈ t, j ≠ i ∧ v j = v i) → t.card < k) :
    i ∈ lastSlice (argsort v) k := by
  classical
  have hperm : (argsort v).Perm (List.finRange n) := List.perm_insertionSort _ _
  have hlen : (argsort v).length = n := by
    rw [hperm.length_eq, List.length_finRange]
  have hnd : (argsort v).Nodup := hperm.nodup_iff.mpr (List.nodup_finRange n)
  have hmeml : i ∈ argsort v := hperm.mem_iff.mpr (List.mem_finRange i)
  haveI hto : IsTotal (Fin n) (fun a b => v a ≤ v b) := ⟨fun a b => le_total (v a) (v b)⟩
  haveI htr : IsTrans (Fin n) (fun a b => v a ≤ v b) :=
    ⟨fun a b c0 h1 h2 => le_trans h1 h2⟩
  have hsorted : (argsort v).Sorted (fun a b => v a ≤ v b) :=
    List.sorted_insertionSort _ _
  have hpw := List.pairwise_iff_get.mp hsorted
  obtain ⟨m, hm⟩ := List.mem_iff_get.mp hmeml
  unfold lastSlice
  by_cases hk : k = 0
  · rw [if_pos hk]
    exact hmeml
  rw [if_neg hk]
  by_cases hcase : (argsort v).length - k ≤ (m : ℕ)
  · have h3 : ((argsort v).length - k) + ((m : ℕ) - ((argsort v).length - k)) <
        (argsort v).length := by
      have := m.isLt
      omega
    have hget := List.get_drop (argsort v) h3
    have hidx : (⟨((argsort v).length - k) + ((m : ℕ) - ((argsort v).length - k)), h3⟩ :
        Fin (argsort v).length) = m := by
      apply Fin.ext
      show ((argsort v).length - k) + ((m : ℕ) - ((argsort v).length - k)) = (m : ℕ)
      omega
    rw [hidx, hm] at hget
    rw [hget]
    exact List.get_mem _ _ _
  · push_neg at hcase
    exfalso
    have hsub : ((argsort v).drop ((m : ℕ) + 1)).Sublist (argsort v) :=
      List.drop_sublist _ _
    have hndt : ((argsort v).drop ((m : ℕ) + 1)).Nodup := List.Nodup.sublist hsub hnd
    have hcardt : ((argsort v).drop ((m : ℕ) + 1)).toFinset.card = n - (m : ℕ) - 1 := by
      rw [List.toFinset_card_of_nodup hndt, List.length_drop]
      omega
    have hprop : ∀ j ∈ ((argsort v).drop ((m : ℕ) + 1)).toFinset, j ≠ i ∧ v j = v i := by
      intro j hj
      rw [List.mem_toFinset] at hj
      obtain ⟨idx, hidx⟩ := List.mem_iff_get.mp hj
      have hlt3 : ((m : ℕ) + 1) + (idx : ℕ) < (argsort v).length := by
        have h5 := idx.isLt
        have h6 : (List.drop ((m : ℕ) + 1) (argsort v)).length =
            (argsort v).length - ((m : ℕ) + 1) := by
          rw [List.length_drop]
        omega
      have hget2 := List.get_drop (argsort v) hlt3
      have hgj : (argsort v).get ⟨(m : ℕ) + 1 + (idx : ℕ), hlt3⟩ = j := by
        rw [hget2, Fin.eta]
        exact hidx
      have hrel : v ((argsort v).get m) ≤
          v ((argsort v).get ⟨(m : ℕ) + 1 + (idx : ℕ), hlt3⟩) := by
        apply hpw
        rw [Fin.lt_def]
        show (m : ℕ) < (m : ℕ) + 1 + (idx : ℕ)
        omega
      rw [hm, hgj] at hrel
      have hvj : v j = v i := le_antisymm (hmax j) hrel
      refine ⟨fun hjeq => ?_, hvj⟩
      have hinj := List.nodup_iff_injective_get.mp hnd
      have hfe : (⟨(m : ℕ) + 1 + (idx : ℕ), hlt3⟩ : Fin (argsort v).length) = m := by
        apply hinj
        rw [hgj, hm, hjeq]
      have hval := congrArg Fin.val hfe
      simp only [] at hval
      omega
    have hfin := htie _ hprop
    omega

open Classical in
/-- C10: whenever fewer than k rows other than i are tied at the maximal
    similarity S[i,i], row i is contained in its own neighbour list, so it is
    its own mutual neighbour with its own label, and get_W2 puts the self-loop
    weight -lambda2 * S[i,i] on the diagonal, which equals -lambda2 for rows
    of nonzero norm. -/
theorem w2_selfloop_diag :
    (∀ (n c : ℕ) (A : Matrix (Fin n) (Fin c) ℝ) (k : ℕ) (i : Fin n), 1 ≤ k →
      (∀ t : Finset (Fin n), (∀ j ∈ t, j ≠ i ∧ simMatrix A i j = simMatrix A i i) →
        t.card < k) →
      i ∈ (get_kNNs A k).2 i) ∧
    (∀ (p q c : ℕ) (Xp : Matrix (Fin p) (Fin c) ℝ) (Xn : Matrix (Fin q) (Fin c) ℝ)
      (k : ℕ) (lam : ℝ) (i : Fin (p + q)), 1 ≤ k →
      (∀ t : Finset (Fin (p + q)),
        (∀ j ∈ t, j ≠ i ∧ simMatrix (vcat Xp Xn) i j = simMatrix (vcat Xp Xn) i i) →
        t.card < k) →
      get_W2 Xp Xn k lam i i = -lam * simMatrix (vcat Xp Xn) i i ∧
      ((∃ j, vcat Xp Xn i j ≠ 0) → get_W2 Xp Xn k lam i i = -lam)) := by
  have hmem : ∀ (n c : ℕ) (A : Matrix (Fin n) (Fin c) ℝ) (k : ℕ) (i : Fin n), 1 ≤ k →
      (∀ t : Finset (Fin n), (∀ j ∈ t, j ≠ i ∧ simMatrix A i j = simMatrix A i i) →
        t.card < k) → i ∈ (get_kNNs A k).2 i := by
    intro n c A k i hk htie
    show i ∈ lastSlice (argsort fun j => simMatrix A i j) k
    exact self_mem_lastSlice _ k i (fun j => simMatrix_le_diag A i j) htie
  refine ⟨hmem, ?_⟩
  intro p q c Xp Xn k lam i hk htie
  have hii := hmem (p + q) c (vcat Xp Xn) k i hk htie
  have hW : get_W2 Xp Xn k lam i i = -lam * simMatrix (vcat Xp Xn) i i := by
    simp only [get_W2]
    rw [if_pos ⟨hii, hii⟩]
    simp [get_kNNs]
  refine ⟨hW, fun hnz => ?_⟩
  have hnzsum : (∑ t, vcat Xp Xn i t ^ 2) ≠ 0 := by
    intro h0
    obtain ⟨j, hj⟩ := hnz
    exact hj (row_zero_of_sq_sum _ i h0 j)
  rw [hW, simMatrix_diag, if_neg hnzsum, mul_one]

theorem w2_selfloop_diag_witness :
    (0 : Fin 2) ∈ (get_kNNs (vcat Xp1 Xn1) 2).2 0 ∧ get_W2 Xp1 Xn1 2 1 0 0 = -1 := by
  have htie : ∀ t : Finset (Fin 2),
      (∀ j ∈ t, j ≠ 0 ∧ simMatrix (vcat Xp1 Xn1) 0 j = simMatrix (vcat Xp1 Xn1) 0 0) →
      t.card < 2 := by
    intro t ht
    have hempty : t = ∅ := by
      apply Finset.eq_empty_iff_forall_not_mem.mpr
      intro j hj
      obtain ⟨hne, heq⟩ := ht j hj
      fin_cases j
      · exact hne rfl
      · rw [simMatrix12] at heq
        norm_num at heq
    rw [hempty]
    simp
  have hnz : ∃ j, vcat Xp1 Xn1 (0 : Fin 2) j ≠ 0 := by
    refine ⟨0, ?_⟩
    rw [X12_eq]
    norm_num
  exact ⟨w2_selfloop_diag.1 2 1 (vcat Xp1 Xn1) 2 0 (by norm_num) htie,
    (w2_selfloop_diag.2 1 1 1 Xp1 Xn1 2 1 0 (by norm_num) htie).2 hnz⟩

theorem w1_transpose (M : ℕ) : (get_W1 M)ᵀ = get_W1 M := by
  unfold get_W1
  rw [Matrix.fromBlocks_transpose, Matrix.transpose_zero, Matrix.transpose_one]

theorem laplacian_transpose {α : Type} [Fintype α] [DecidableEq α]
    (W : Matrix α α ℝ) (h : Wᵀ = W) : (get_Laplacian W)ᵀ = get_Laplacian W := by
  unfold get_Laplacian
  rw [Matrix.transpose_sub, Matrix.diagonal_transpose, h]

theorem sandwich_transpose {α β : Type} [Fintype α] [Fintype β]
    (P : Matrix α β ℝ) (L : Matrix α α ℝ) (h : Lᵀ = L) :
    (Pᵀ * L * P)ᵀ = Pᵀ * L * P := by
  rw [Matrix.transpose_mul, Matrix.transpose_mul, Matrix.transpose_transpose, h,
    Matrix.mul_assoc]

theorem w2_transpose {p q c : ℕ} (Xp : Matrix (Fin p) (Fin c) ℝ)
    (Xn : Matrix (Fin q) (Fin c) ℝ) (k : ℕ) (lam : ℝ) :
    (get_W2 Xp Xn k lam)ᵀ = get_W2 Xp Xn k lam := by
  ext i j
  show get_W2 Xp Xn k lam j i = get_W2 Xp Xn k lam i j
  simp only [get_W2]
  have hS : (get_kNNs (vcat Xp Xn) k).1 j i = (get_kNNs (vcat Xp Xn) k).1 i j :=
    simMatrix_symm_apply (vcat Xp Xn) i j
  by_cases hm : i ∈ (get_kNNs (vcat Xp Xn) k).2 j ∧ j ∈ (get_kNNs (vcat Xp Xn) k).2 i
  · have hm2 : j ∈ (get_kNNs (vcat Xp Xn) k).2 i ∧ i ∈ (get_kNNs (vcat Xp Xn) k).2 j :=
      ⟨hm.2, hm.1⟩
    rw [if_pos hm, if_pos hm2]
    by_cases hy : labels p q j = labels p q i
    · rw [if_pos hy, if_pos hy.symm, hS]
    · rw [if_neg hy, if_neg (fun h => hy h.symm), hS]
  · have hm2 : ¬ (j ∈ (get_kNNs (vcat Xp Xn) k).2 i ∧ i ∈ (get_kNNs (vcat Xp Xn) k).2 j) :=
      fun h => hm ⟨h.2, h.1⟩
    rw [if_neg hm, if_neg hm2]

theorem w3_transpose {n c : ℕ} (X : Matrix (Fin n) (Fin c) ℝ) (k : ℕ) :
    (get_W3 X k)ᵀ = get_W3 X k := by
  ext i j
  show get_W3 X k j i = get_W3 X k i j
  exact simMatrix_symm_apply X i j

/-- C1: the joint embedding matrix Q assembled by get_embedding is exactly
    symmetric in exact arithmetic, hence also symmetric within the 1e-6
    elementwise floating-point tolerance stated by the specification. -/
theorem embedding_Q_symmetric (se : SupEmb M ra rb d hd p q ua ub) :
    (se.get_embedding)ᵀ = se.get_embedding ∧
    ∀ i j, |se.get_embedding i j - (se.get_embedding)ᵀ i j| < 1 / 1000000 := by
  have hsym : (se.get_embedding)ᵀ = se.get_embedding := by
    simp only [SupEmb.get_embedding]
    rw [Matrix.transpose_sub, Matrix.fromBlocks_transpose, Matrix.transpose_sub,
      Matrix.transpose_smul, Matrix.transpose_smul, Matrix.transpose_smul,
      Matrix.transpose_transpose,
      sandwich_transpose _ _
        (laplacian_transpose _ (w2_transpose se.XlA_pos se.XlA_neg se.k2 se.lambda_2)),
      sandwich_transpose _ _ (laplacian_transpose _ (w3_transpose se.XuA se.k3)),
      sandwich_transpose _ _ (laplacian_transpose _ (w3_transpose se.XuB se.k3_bar)),
      sandwich_transpose _ _ (laplacian_transpose _ (w1_transpose M))]
  refine ⟨hsym, fun i j => ?_⟩
  rw [hsym, sub_self, abs_zero]
  norm_num
